import Mathlib

/-!
Verification of the songs-history changelog generator (src/main.rs).

The program walks the commits of a backup repository oldest-first, diffs
consecutive tree snapshots restricted to the `output/songs` directory,
classifies each delta as Added or Deleted by the path's stem, dedups Added
events against a growing `already_added` set, suppresses Deleted events whose
identifier is in the current-id set loaded from `output/summary.json` at head,
and writes one report section per commit that has at least one surviving event.

The embedding below models the version-control backend at the interface the
program uses (first-parent lookup and tree-to-tree diffs yielding
status/new-file-path pairs), and models the per-run file effects of `main` at
the granularity of its abort points.
-/

namespace SongsHistory

/-- Delta status as reported by the diff backend.  `main` only reacts to
`Added` and `Deleted` (`git2::Delta::{Added, Deleted}`); every other status is
collapsed into `other`, which the loop skips (`if !matches!(delta.status(), Added | Deleted) { continue }`). -/
inductive DStatus where
  | added
  | deleted
  | other
deriving DecidableEq

/-- One tree-diff delta: a status and the new-side file record's path
(`delta.new_file().path()`, an `Option` because libgit2 may leave it unset;
for `Deleted` deltas the backend mirrors the old path into the new-file
record).  Paths are modelled as their component lists. -/
structure DeltaRec where
  status : DStatus
  newFilePath : Option (List String)
deriving DecidableEq

/-- A tree snapshot, modelled by the file paths it contains (contents are
irrelevant to the program, which only classifies presence/absence). -/
abbrev Tree := List (List String)

/-- A commit as consumed by the walk loop: the trees of its parents (in
parent order; `commit.parent(0)` is the head of this list) and its own tree.
Commit identity beyond this is never used by the loop. -/
structure Commit where
  parents : List Tree
  tree : Tree
deriving DecidableEq

/-- Rust `Path::file_name` on a component list: the final component, `none`
for an empty path or one ending in a parent-dir / empty component. -/
def fileName : List String → Option String
  | [] => none
  | [x] => if x = ".." ∨ x = "" then none else some x
  | _ :: xs => fileName xs

/-- Index of the last `'.'` in a character list, if any. -/
def lastDotIdx : List Char → Option Nat
  | [] => none
  | c :: cs =>
    match lastDotIdx cs with
    | some i => some (i + 1)
    | none => if c = '.' then some 0 else none

/-- Rust `Path::file_stem` semantics on a file name's characters: the part
before the final `'.'`; the whole name when there is no `'.'` or when the only
`'.'` is the leading character (hidden-file convention). -/
def stemChars (cs : List Char) : List Char :=
  match lastDotIdx cs with
  | none => cs
  | some 0 => cs
  | some (i + 1) => cs.take (i + 1)

/-- `path.file_stem()`: stem of the final component. -/
def fileStem (p : List String) : Option String :=
  (fileName p).map (fun n => String.mk (stemChars n.data))

/-- `path.starts_with("output/songs")`: component-wise prefix test. -/
def underSongs : List String → Bool
  | "output" :: "songs" :: _ => true
  | _ => false

/-- Model of `repo.diff_tree_to_tree(old, new)` restricted to what the
program consumes: an `Added` delta for each path present only in the new
tree and a `Deleted` delta for each path present only in the old tree, the
new-file path populated in both cases.  Deltas for paths present in both
trees carry other statuses (Modified etc.), which the loop skips outright;
they are omitted here, and the skip itself is proved separately on
`processDeltas`.  Within each class the tree's path order is kept; the
program accumulates adds and deletes in separate lists, so only that
relative order is observable. -/
def diffTrees (oldT newT : Tree) : List DeltaRec :=
  (newT.filter (fun p => decide (p ∉ oldT))).map (fun p => ⟨.added, some p⟩)
    ++ (oldT.filter (fun p => decide (p ∉ newT))).map (fun p => ⟨.deleted, some p⟩)

/-- One rendered event line, keyed by the identifier; the actual text embeds
the identifier into `format_video`'s fixed URL template. -/
inductive ReportLine where
  | added (v : String)
  | removed (v : String)
deriving DecidableEq

/-- One report section: the walk index of the commit it belongs to, and its
event lines (`Added` lines first, then `Removed` lines, as written by the
two `for` loops). -/
structure ReportSection where
  idx : Nat
  lines : List ReportLine
deriving DecidableEq

/-- `format_video`: the link-style display form of an identifier. -/
def format_video (video : String) : String :=
  "[" ++ video ++ "](https://youtu.be/" ++ video ++ ")"

/-- The per-commit delta loop (main.rs lines 77–103).  State `st` is the
`already_added` set; `curIds` is the current-id set.  Returns the updated
`already_added` set and the `added` and `deleted` vectors, or `none` when one
of the two `unwrap`s (on `new_file().path()` and on `file_stem()`) panics. -/
def processDeltas (curIds : List String) :
    List String → List DeltaRec → Option (List String × List String × List String)
  | st, [] => some (st, [], [])
  | st, d :: ds =>
    if d.status = .other then processDeltas curIds st ds
    else
      match d.newFilePath with
      | none => none
      | some path =>
        if underSongs path then
          match fileStem path with
          | none => none
          | some video =>
            match d.status with
            | .added =>
              if video ∈ st then processDeltas curIds st ds
              else
                (processDeltas curIds (video :: st) ds).map
                  (fun r => (r.1, video :: r.2.1, r.2.2))
            | .deleted =>
              if video ∈ curIds then processDeltas curIds st ds
              else
                (processDeltas curIds st ds).map
                  (fun r => (r.1, r.2.1, video :: r.2.2))
            | .other => processDeltas curIds st ds
        else processDeltas curIds st ds

/-- The commit walk (main.rs lines 59–116) over the oldest-first commit
sequence.  `i` is the walk index of the next commit, `st` the `already_added`
set.  A commit with no parent is skipped (`commit.parent(0)` errors and the
loop continues); otherwise its diff against the first parent is classified
and a section is written exactly when the filtered event count is nonzero.
`Except.error` models a panic inside the loop and carries the sections
already written to the output file at that point. -/
def runWalk (curIds : List String) :
    List Commit → Nat → List String → Except (List ReportSection) (List ReportSection)
  | [], _, _ => .ok []
  | c :: rest, i, st =>
    match c.parents.head? with
    | none => runWalk curIds rest (i + 1) st
    | some p =>
      match processDeltas curIds st (diffTrees p c.tree) with
      | none => .error []
      | some (st', a, dl) =>
        if a.length + dl.length = 0 then runWalk curIds rest (i + 1) st'
        else
          match runWalk curIds rest (i + 1) st' with
          | .ok tail =>
            .ok (⟨i, a.map ReportLine.added ++ dl.map ReportLine.removed⟩ :: tail)
          | .error ptail =>
            .error (⟨i, a.map ReportLine.added ++ dl.map ReportLine.removed⟩ :: ptail)

/-- Shape-model of a `serde_json::Value`; only the structure that
`get_current_ids` inspects is distinguished (objects, arrays, strings);
numbers, booleans and null are opaque non-matching shapes. -/
inductive JVal where
  | str (s : String)
  | num
  | boolVal (b : Bool)
  | nullVal
  | arr (xs : List JVal)
  | obj (fields : List (String × JVal))

/-- Field lookup in an object's field list (serde maps have unique keys). -/
def lookupField (key : String) : List (String × JVal) → Option JVal
  | [] => none
  | kv :: rest => if kv.1 = key then some kv.2 else lookupField key rest

/-- `Value::get(key)`: `none` on non-objects and missing keys. -/
def jGet (v : JVal) (key : String) : Option JVal :=
  match v with
  | .obj fs => lookupField key fs
  | _ => none

/-- `value[key]` (the `Index` impl): the field's value, or `Null` when the
value is not an object or lacks the key. -/
def jIndex (v : JVal) (key : String) : JVal :=
  match jGet v key with
  | some x => x
  | none => .nullVal

/-- `Value::as_str`. -/
def jAsStr : JVal → Option String
  | .str s => some s
  | _ => none

/-- `Value::as_array`. -/
def jAsArr : JVal → Option (List JVal)
  | .arr xs => some xs
  | _ => none

/-- `HashSet::insert`, membership-faithful list model. -/
def insertSet (x : String) (s : List String) : List String :=
  if x ∈ s then s else x :: s

/-- The inner `for item in items_array` loop of `get_current_ids`:
`item["id"].as_str().unwrap()` panics (`none`) when the `"id"` field is
missing or not a string; otherwise the id is inserted into the set. -/
def addItemIds : List JVal → List String → Option (List String)
  | [], acc => some acc
  | item :: rest, acc =>
    match jAsStr (jIndex item "id") with
    | none => none
    | some i => addItemIds rest (insertSet i acc)

/-- The outer `for value in stream` loop of `get_current_ids`: a value with
no `"items"` field, or whose `"items"` is not an array, contributes nothing
and is skipped. -/
def getIdsGo : List JVal → List String → Option (List String)
  | [], acc => some acc
  | v :: rest, acc =>
    match jGet v "items" with
    | none => getIdsGo rest acc
    | some items =>
      match jAsArr items with
      | none => getIdsGo rest acc
      | some xs =>
        match addItemIds xs acc with
        | none => none
        | some acc2 => getIdsGo rest acc2

/-- `get_current_ids` (main.rs lines 140–168) over the stream of values
successfully parsed from `output/summary.json`; parse failures are dropped by
the `if let Ok` guard before this loop sees them.  `none` models the panic on
a malformed `"id"`. -/
def get_current_ids (stream : List JVal) : Option (List String) :=
  getIdsGo stream []

/-- What opening the output file did to it. -/
inductive OpenOutcome where
  | createdNew
  | truncatedExisting
deriving DecidableEq

/-- The `OpenOptions` call of main.rs lines 37–51:
`write(true).truncate(true).create_new(!force).create(force)`.
Without `--force`, `create_new` demands the file not exist and errors with
`AlreadyExists` (matched to the user-facing panic message) without touching
it; with `--force` an existing file is truncated; a missing file is created
in either case. -/
def openOutput (force fileExists : Bool) : Except String OpenOutcome :=
  if fileExists then
    if force then .ok .truncatedExisting
    else
      .error "Output file output.txt already exists. Use -f, --force to force overwriting the destination"
  else .ok .createdNew

/-- The backend-facing state of one run: whether `Repository::open`,
`revwalk.push_head`, and the head/summary resolution inside
`get_current_ids` succeed, the parsed summary stream, and the oldest-first
walked commit sequence. -/
structure RepoM where
  openOk : Bool
  headOk : Bool
  summaryOk : Bool
  summaryStream : List JVal
  history : List Commit

/-- Outcome of a run, at the granularity of the output file's state:
`fatalUntouched` aborts before the output file is opened (its prior content,
if any, is intact); `fatalAfterTitle` aborts after the file was truncated and
the `# songs-history` title line written (the sections already written are
carried); `success` ends with the title line followed by the rendered
sections. -/
inductive RunOutcome where
  | fatalUntouched
  | fatalAfterTitle (written : List ReportSection)
  | success (secs : List ReportSection)
deriving DecidableEq

/-- `main` (main.rs lines 26–120) in program order: open the repository,
resolve head for the revwalk, open (and possibly truncate) `output.txt`,
write the title line, load the current-id set, then walk the commits. -/
def mainModel (repo : RepoM) (force fileExists : Bool) : RunOutcome :=
  if repo.openOk = false then .fatalUntouched
  else if repo.headOk = false then .fatalUntouched
  else
    match openOutput force fileExists with
    | .error _ => .fatalUntouched
    | .ok _ =>
      if repo.summaryOk = false then .fatalAfterTitle []
      else
        match get_current_ids repo.summaryStream with
        | none => .fatalAfterTitle []
        | some cur =>
          match runWalk cur repo.history 0 [] with
          | .error written => .fatalAfterTitle written
          | .ok secs => .success secs

/-- Rust `{:02}` formatting of a (nonnegative) value: zero-padded to at
least two digits. -/
def pad2 (n : Int) : String :=
  if n < 10 then "0" ++ toString n else toString n

/-- `format_time` (main.rs lines 122–138): the timestamp handed to the
calendar formatter (`strftime`, external and opaque here) and the rendered
offset suffix.  The sign is `'-'` exactly for negative offsets, the offset is
negated to its absolute value, split into hours and minutes, and each part
zero-padded to two digits. -/
def format_time (seconds offsetMinutes : Int) : Int × String :=
  let os := if offsetMinutes < 0 then (-offsetMinutes, '-') else (offsetMinutes, '+')
  let hours := os.1 / 60
  let minutes := os.1 % 60
  let shifted := seconds + offsetMinutes * 60
  (shifted, String.singleton os.2 ++ pad2 hours ++ pad2 minutes)

/-- Spec-side description of a commit diff's qualifying stems for one
status: the stems, in delta order, of deltas with that status whose new-side
path lies under the tracked directory. -/
def qualStems (s : DStatus) (ds : List DeltaRec) : List String :=
  ds.filterMap (fun d =>
    if d.status = s then
      d.newFilePath.bind (fun p => if underSongs p then fileStem p else none)
    else none)

/-- Whether a commit's first-parent diff contains a qualifying `Added` delta
with stem `v` (spec-side; a root commit has no diff). -/
def hasQualAdd (v : String) (c : Commit) : Bool :=
  match c.parents.head? with
  | none => false
  | some p => decide (v ∈ qualStems .added (diffTrees p c.tree))

/-- Walk index of the earliest commit whose diff contains a qualifying
`Added` delta with stem `v`. -/
def firstQualIdx (v : String) : List Commit → Option Nat
  | [] => none
  | c :: cs =>
    if hasQualAdd v c then some 0
    else (firstQualIdx v cs).map (fun k => k + 1)

/-- Total number of `Added v` lines in a report. -/
def addedLineCount (r : List ReportSection) (v : String) : Nat :=
  (r.map (fun sec => sec.lines.count (ReportLine.added v))).sum

/-- The filtered added-plus-deleted event count of one commit against the
`already_added` state `st` (a root commit yields zero events). -/
def commitCount (cur st : List String) (c : Commit) : Option Nat :=
  match c.parents.head? with
  | none => some 0
  | some p =>
    (processDeltas cur st (diffTrees p c.tree)).map
      (fun res => res.2.1.length + res.2.2.length)

/-- The expected report sections for a run of single-`Added` commits starting
at walk index `i`. -/
def sectionsFrom (i : Nat) : List String → List ReportSection
  | [] => []
  | v :: vs => ⟨i, [ReportLine.added v]⟩ :: sectionsFrom (i + 1) vs

/-- A linear run of commits on top of tree `t`, each a single-parent child of
its predecessor whose diff consists of exactly one qualifying `Added` delta
with the corresponding stem. -/
def AddsChain : Tree → List Commit → List String → Prop
  | _, [], [] => True
  | t, c :: cs, v :: vs =>
    c.parents = [t] ∧
    (∃ p, diffTrees t c.tree = [⟨.added, some p⟩] ∧ underSongs p = true ∧
      fileStem p = some v) ∧
    AddsChain c.tree cs vs
  | _, _, _ => False

/-! ### Helper lemmas -/

lemma insertSet_mem (x y : String) (s : List String) :
    y ∈ insertSet x s ↔ y = x ∨ y ∈ s := by
  unfold insertSet
  split
  · rename_i h
    constructor
    · exact fun hy => Or.inr hy
    · rintro (rfl | hy)
      · exact h
      · exact hy
  · simp [List.mem_cons]

lemma addItemIds_none (item : JVal) (hbad : jAsStr (jIndex item "id") = none) :
    ∀ xs : List JVal, item ∈ xs → ∀ acc : List String, addItemIds xs acc = none := by
  intro xs
  induction xs with
  | nil => intro h; cases h
  | cons hd tl ih =>
    intro hmem acc
    rw [List.mem_cons] at hmem
    unfold addItemIds
    cases h : jAsStr (jIndex hd "id") with
    | none => rfl
    | some i =>
      rcases hmem with rfl | hmem
      · rw [hbad] at h; cases h
      · exact ih hmem _

lemma addItemIds_mem (xs : List JVal) :
    ∀ acc acc2 : List String, addItemIds xs acc = some acc2 →
      ∀ x : String, x ∈ acc2 ↔
        (x ∈ acc ∨ ∃ item, item ∈ xs ∧ jAsStr (jIndex item "id") = some x) := by
  induction xs with
  | nil =>
    intro acc acc2 h x
    simp [addItemIds] at h
    subst h
    simp
  | cons hd tl ih =>
    intro acc acc2 h x
    unfold addItemIds at h
    cases hid : jAsStr (jIndex hd "id") with
    | none => simp [hid] at h
    | some i =>
      rw [hid] at h
      rw [ih _ _ h x, insertSet_mem]
      constructor
      · rintro ((rfl | hx) | ⟨item, hit, his⟩)
        · exact Or.inr ⟨hd, List.mem_cons_self hd tl, hid⟩
        · exact Or.inl hx
        · exact Or.inr ⟨item, List.mem_cons_of_mem hd hit, his⟩
      · rintro (hx | ⟨item, hit, his⟩)
        · exact Or.inl (Or.inr hx)
        · rw [List.mem_cons] at hit
          rcases hit with rfl | hit
          · rw [hid] at his
            exact Or.inl (Or.inl (by injection his with h2; exact h2.symm))
          · exact Or.inr ⟨item, hit, his⟩

lemma processDeltas_cons_other (cur st : List String) (d : DeltaRec) (ds : List DeltaRec)
    (h : d.status = .other) :
    processDeltas cur st (d :: ds) = processDeltas cur st ds := by
  simp [processDeltas, h]

lemma processDeltas_cons_noPath (cur st : List String) (d : DeltaRec) (ds : List DeltaRec)
    (h1 : d.status ≠ .other) (h2 : d.newFilePath = none) :
    processDeltas cur st (d :: ds) = none := by
  simp [processDeltas, h1, h2]

lemma processDeltas_cons_notUnder (cur st : List String) (d : DeltaRec) (ds : List DeltaRec)
    (p : List String) (h2 : d.newFilePath = some p) (h3 : underSongs p = false) :
    processDeltas cur st (d :: ds) = processDeltas cur st ds := by
  by_cases h1 : d.status = .other
  · simp [processDeltas, h1]
  · simp [processDeltas, h1, h2, h3]

lemma processDeltas_cons_noStem (cur st : List String) (d : DeltaRec) (ds : List DeltaRec)
    (p : List String) (h1 : d.status ≠ .other) (h2 : d.newFilePath = some p)
    (h3 : underSongs p = true) (h4 : fileStem p = none) :
    processDeltas cur st (d :: ds) = none := by
  simp [processDeltas, h1, h2, h3, h4]

lemma processDeltas_cons_added_dup (cur st : List String) (d : DeltaRec) (ds : List DeltaRec)
    (p : List String) (v : String) (hA : d.status = .added) (h2 : d.newFilePath = some p)
    (h3 : underSongs p = true) (h4 : fileStem p = some v) (h5 : v ∈ st) :
    processDeltas cur st (d :: ds) = processDeltas cur st ds := by
  simp [processDeltas, hA, h2, h3, h4, h5]

lemma processDeltas_cons_added_new (cur st : List String) (d : DeltaRec) (ds : List DeltaRec)
    (p : List String) (v : String) (hA : d.status = .added) (h2 : d.newFilePath = some p)
    (h3 : underSongs p = true) (h4 : fileStem p = some v) (h5 : v ∉ st) :
    processDeltas cur st (d :: ds) =
      (processDeltas cur (v :: st) ds).map (fun r => (r.1, v :: r.2.1, r.2.2)) := by
  simp [processDeltas, hA, h2, h3, h4, h5]

lemma processDeltas_cons_del_cur (cur st : List String) (d : DeltaRec) (ds : List DeltaRec)
    (p : List String) (v : String) (hD : d.status = .deleted) (h2 : d.newFilePath = some p)
    (h3 : underSongs p = true) (h4 : fileStem p = some v) (h5 : v ∈ cur) :
    processDeltas cur st (d :: ds) = processDeltas cur st ds := by
  simp [processDeltas, hD, h2, h3, h4, h5]

lemma processDeltas_cons_del_keep (cur st : List String) (d : DeltaRec) (ds : List DeltaRec)
    (p : List String) (v : String) (hD : d.status = .deleted) (h2 : d.newFilePath = some p)
    (h3 : underSongs p = true) (h4 : fileStem p = some v) (h5 : v ∉ cur) :
    processDeltas cur st (d :: ds) =
      (processDeltas cur st ds).map (fun r => (r.1, r.2.1, v :: r.2.2)) := by
  simp [processDeltas, hD, h2, h3, h4, h5]

lemma qualStems_cons_hit (s : DStatus) (d : DeltaRec) (ds : List DeltaRec)
    (p : List String) (v : String) (hs : d.status = s) (h2 : d.newFilePath = some p)
    (h3 : underSongs p = true) (h4 : fileStem p = some v) :
    qualStems s (d :: ds) = v :: qualStems s ds := by
  simp [qualStems, List.filterMap_cons, hs, h2, h3, h4]

lemma qualStems_cons_skip_status (s : DStatus) (d : DeltaRec) (ds : List DeltaRec)
    (hs : d.status ≠ s) :
    qualStems s (d :: ds) = qualStems s ds := by
  simp [qualStems, List.filterMap_cons, hs]

lemma qualStems_cons_skip_path (s : DStatus) (d : DeltaRec) (ds : List DeltaRec)
    (p : List String) (h2 : d.newFilePath = some p) (h3 : underSongs p = false) :
    qualStems s (d :: ds) = qualStems s ds := by
  by_cases hs : d.status = s <;> simp [qualStems, List.filterMap_cons, hs, h2, h3]

/-- Master specification of the per-commit delta loop, assuming it does not
panic: the final `already_added` set is the initial one extended by exactly
the qualifying added stems; the `added` vector holds, without duplicates,
exactly the qualifying added stems not already in the set; the `deleted`
vector is the qualifying deleted stems with current ids filtered out. -/
lemma processDeltas_spec (cur : List String) (ds : List DeltaRec) :
    ∀ st st' a dl : List String,
      processDeltas cur st ds = some (st', a, dl) →
      ((∀ v : String, v ∈ st' ↔ (v ∈ st ∨ v ∈ qualStems .added ds)) ∧
       (∀ v : String, v ∈ a ↔ (v ∉ st ∧ v ∈ qualStems .added ds)) ∧
       dl = (qualStems .deleted ds).filter (fun w => decide (w ∉ cur)) ∧
       a.Nodup) := by
  induction ds with
  | nil =>
    intro st st' a dl h
    simp [processDeltas] at h
    obtain ⟨rfl, rfl, rfl⟩ := h
    simp [qualStems]
  | cons d ds ih =>
    intro st st' a dl h
    by_cases h1 : d.status = .other
    · rw [processDeltas_cons_other cur st d ds h1] at h
      rw [qualStems_cons_skip_status .added d ds (by simp [h1]),
        qualStems_cons_skip_status .deleted d ds (by simp [h1])]
      exact ih st st' a dl h
    · cases h2 : d.newFilePath with
      | none => rw [processDeltas_cons_noPath cur st d ds h1 h2] at h; cases h
      | some p =>
        cases h3 : underSongs p with
        | false =>
          rw [processDeltas_cons_notUnder cur st d ds p h2 h3] at h
          rw [qualStems_cons_skip_path .added d ds p h2 h3,
            qualStems_cons_skip_path .deleted d ds p h2 h3]
          exact ih st st' a dl h
        | true =>
          cases h4 : fileStem p with
          | none => rw [processDeltas_cons_noStem cur st d ds p h1 h2 h3 h4] at h; cases h
          | some v =>
            cases hA : d.status with
            | other => exact absurd hA h1
            | added =>
              rw [qualStems_cons_hit .added d ds p v hA h2 h3 h4,
                qualStems_cons_skip_status .deleted d ds (by simp [hA])]
              by_cases h5 : v ∈ st
              · rw [processDeltas_cons_added_dup cur st d ds p v hA h2 h3 h4 h5] at h
                obtain ⟨P1, P2, P3, P4⟩ := ih st st' a dl h
                refine ⟨?_, ?_, P3, P4⟩
                · intro w
                  rw [P1 w, List.mem_cons]
                  constructor
                  · rintro (hw | hw)
                    · exact Or.inl hw
                    · exact Or.inr (Or.inr hw)
                  · rintro (hw | rfl | hw)
                    · exact Or.inl hw
                    · exact Or.inl h5
                    · exact Or.inr hw
                · intro w
                  rw [P2 w, List.mem_cons]
                  constructor
                  · rintro ⟨hw1, hw2⟩
                    exact ⟨hw1, Or.inr hw2⟩
                  · rintro ⟨hw1, rfl | hw2⟩
                    · exact absurd h5 hw1
                    · exact ⟨hw1, hw2⟩
              · rw [processDeltas_cons_added_new cur st d ds p v hA h2 h3 h4 h5] at h
                cases hin : processDeltas cur (v :: st) ds with
                | none => rw [hin] at h; cases h
                | some res =>
                  obtain ⟨st0, a0, dl0⟩ := res
                  rw [hin] at h
                  simp only [Option.map_some', Option.some.injEq, Prod.mk.injEq] at h
                  obtain ⟨rfl, rfl, rfl⟩ := h
                  obtain ⟨P1, P2, P3, P4⟩ := ih (v :: st) st0 a0 dl0 hin
                  refine ⟨?_, ?_, P3, ?_⟩
                  · intro w
                    rw [P1 w]
                    simp only [List.mem_cons]
                    tauto
                  · intro w
                    simp only [List.mem_cons]
                    constructor
                    · rintro (rfl | hw)
                      · exact ⟨h5, Or.inl rfl⟩
                      · obtain ⟨hw1, hw2⟩ := (P2 w).mp hw
                        simp only [List.mem_cons] at hw1
                        push_neg at hw1
                        exact ⟨hw1.2, Or.inr hw2⟩
                    · rintro ⟨hw1, rfl | hw2⟩
                      · exact Or.inl rfl
                      · by_cases hwv : w = v
                        · exact Or.inl hwv
                        · refine Or.inr ((P2 w).mpr ⟨?_, hw2⟩)
                          simp only [List.mem_cons]
                          push_neg
                          exact ⟨hwv, hw1⟩
                  · refine List.Nodup.cons ?_ P4
                    intro hv
                    obtain ⟨hv1, _⟩ := (P2 v).mp hv
                    exact hv1 (List.mem_cons_self v st)
            | deleted =>
              rw [qualStems_cons_hit .deleted d ds p v hA h2 h3 h4,
                qualStems_cons_skip_status .added d ds (by simp [hA])]
              by_cases h5 : v ∈ cur
              · rw [processDeltas_cons_del_cur cur st d ds p v hA h2 h3 h4 h5] at h
                obtain ⟨P1, P2, P3, P4⟩ := ih st st' a dl h
                refine ⟨P1, P2, ?_, P4⟩
                rw [List.filter_cons]
                simp [h5, P3]
              · rw [processDeltas_cons_del_keep cur st d ds p v hA h2 h3 h4 h5] at h
                cases hin : processDeltas cur st ds with
                | none => rw [hin] at h; cases h
                | some res =>
                  obtain ⟨st0, a0, dl0⟩ := res
                  rw [hin] at h
                  simp only [Option.map_some', Option.some.injEq, Prod.mk.injEq] at h
                  obtain ⟨rfl, rfl, rfl⟩ := h
                  obtain ⟨P1, P2, P3, P4⟩ := ih st st0 a0 dl0 hin
                  refine ⟨P1, P2, ?_, P4⟩
                  rw [List.filter_cons]
                  simp [h5, P3]

lemma runWalk_root (cur : List String) (c : Commit) (rest : List Commit) (i : Nat)
    (st : List String) (h : c.parents.head? = none) :
    runWalk cur (c :: rest) i st = runWalk cur rest (i + 1) st := by
  simp [runWalk, h]

lemma runWalk_panic (cur : List String) (c : Commit) (rest : List Commit) (i : Nat)
    (st : List String) (p : Tree) (h1 : c.parents.head? = some p)
    (h2 : processDeltas cur st (diffTrees p c.tree) = none) :
    runWalk cur (c :: rest) i st = .error [] := by
  simp [runWalk, h1, h2]

lemma runWalk_zero (cur : List String) (c : Commit) (rest : List Commit) (i : Nat)
    (st : List String) (p : Tree) (st' a dl : List String)
    (h1 : c.parents.head? = some p)
    (h2 : processDeltas cur st (diffTrees p c.tree) = some (st', a, dl))
    (h3 : a.length + dl.length = 0) :
    runWalk cur (c :: rest) i st = runWalk cur rest (i + 1) st' := by
  simp [runWalk, h1, h2, h3]

lemma runWalk_sec_ok (cur : List String) (c : Commit) (rest : List Commit) (i : Nat)
    (st : List String) (p : Tree) (st' a dl : List String) (tail : List ReportSection)
    (h1 : c.parents.head? = some p)
    (h2 : processDeltas cur st (diffTrees p c.tree) = some (st', a, dl))
    (h3 : ¬(a.length + dl.length = 0))
    (h4 : runWalk cur rest (i + 1) st' = .ok tail) :
    runWalk cur (c :: rest) i st =
      .ok (⟨i, a.map ReportLine.added ++ dl.map ReportLine.removed⟩ :: tail) := by
  simp [runWalk, h1, h2, h3, h4]

lemma runWalk_sec_err (cur : List String) (c : Commit) (rest : List Commit) (i : Nat)
    (st : List String) (p : Tree) (st' a dl : List String) (ptail : List ReportSection)
    (h1 : c.parents.head? = some p)
    (h2 : processDeltas cur st (diffTrees p c.tree) = some (st', a, dl))
    (h3 : ¬(a.length + dl.length = 0))
    (h4 : runWalk cur rest (i + 1) st' = .error ptail) :
    runWalk cur (c :: rest) i st =
      .error (⟨i, a.map ReportLine.added ++ dl.map ReportLine.removed⟩ :: ptail) := by
  simp [runWalk, h1, h2, h3, h4]

lemma added_mem_lines (a dl : List String) (v : String) :
    ReportLine.added v ∈ a.map ReportLine.added ++ dl.map ReportLine.removed ↔ v ∈ a := by
  simp [List.mem_append, List.mem_map]

lemma removed_mem_lines (a dl : List String) (v : String) :
    ReportLine.removed v ∈ a.map ReportLine.added ++ dl.map ReportLine.removed ↔ v ∈ dl := by
  simp [List.mem_append, List.mem_map]

lemma lines_count_added (a dl : List String) (v : String) :
    (a.map ReportLine.added ++ dl.map ReportLine.removed).count (ReportLine.added v) =
      a.count v := by
  rw [List.count_append]
  have h1 : (a.map ReportLine.added).count (ReportLine.added v) = a.count v :=
    List.count_map_of_injective a ReportLine.added (fun x y h => by injection h) v
  have h2 : (dl.map ReportLine.removed).count (ReportLine.added v) = 0 := by
    rw [List.count_eq_zero]
    simp [List.mem_map]
  omega

lemma addedLineCount_nil (v : String) : addedLineCount [] v = 0 := rfl

lemma addedLineCount_cons (sec : ReportSection) (r : List ReportSection) (v : String) :
    addedLineCount (sec :: r) v =
      sec.lines.count (ReportLine.added v) + addedLineCount r v := by
  simp [addedLineCount]

lemma addedLineCount_zero (r : List ReportSection) (v : String)
    (h : addedLineCount r v = 0) :
    ∀ sec ∈ r, ReportLine.added v ∉ sec.lines := by
  induction r with
  | nil => intro sec hsec; simp at hsec
  | cons s r ih =>
    intro sec hsec
    rw [addedLineCount_cons] at h
    rw [List.mem_cons] at hsec
    rcases hsec with rfl | hsec
    · rw [← List.count_eq_zero]
      omega
    · exact ih (by omega) sec hsec

/-- Sections carry walk indexes at least the starting index. -/
lemma runWalk_idx_ge (cur : List String) (hist : List Commit) :
    ∀ (i : Nat) (st : List String) (r : List ReportSection),
      runWalk cur hist i st = Except.ok r → ∀ sec ∈ r, i ≤ sec.idx := by
  induction hist with
  | nil =>
    intro i st r h sec hsec
    simp [runWalk] at h
    subst h
    simp at hsec
  | cons c rest ih =>
    intro i st r h sec hsec
    cases hp : c.parents.head? with
    | none =>
      rw [runWalk_root cur c rest i st hp] at h
      exact Nat.le_of_succ_le (ih (i + 1) st r h sec hsec)
    | some p =>
      cases hpd : processDeltas cur st (diffTrees p c.tree) with
      | none => rw [runWalk_panic cur c rest i st p hp hpd] at h; simp at h
      | some res =>
        obtain ⟨st', a, dl⟩ := res
        by_cases hz : a.length + dl.length = 0
        · rw [runWalk_zero cur c rest i st p st' a dl hp hpd hz] at h
          exact Nat.le_of_succ_le (ih (i + 1) st' r h sec hsec)
        · cases hw : runWalk cur rest (i + 1) st' with
          | error e =>
            rw [runWalk_sec_err cur c rest i st p st' a dl e hp hpd hz hw] at h
            simp at h
          | ok tail =>
            rw [runWalk_sec_ok cur c rest i st p st' a dl tail hp hpd hz hw] at h
            injection h with h'
            subst h'
            rw [List.mem_cons] at hsec
            rcases hsec with rfl | hsec
            · exact Nat.le_refl i
            · exact Nat.le_of_succ_le (ih (i + 1) st' tail hw sec hsec)

/-- At most one `Added v` line in the whole report; none at all when `v` is
already in the `already_added` set at the start of the walk. -/
lemma runWalk_count (cur : List String) (hist : List Commit) :
    ∀ (i : Nat) (st : List String) (r : List ReportSection),
      runWalk cur hist i st = Except.ok r → ∀ v : String,
        addedLineCount r v ≤ 1 ∧ (v ∈ st → addedLineCount r v = 0) := by
  induction hist with
  | nil =>
    intro i st r h v
    simp [runWalk] at h
    subst h
    simp [addedLineCount_nil]
  | cons c rest ih =>
    intro i st r h v
    cases hp : c.parents.head? with
    | none =>
      rw [runWalk_root cur c rest i st hp] at h
      exact ih (i + 1) st r h v
    | some p =>
      cases hpd : processDeltas cur st (diffTrees p c.tree) with
      | none => rw [runWalk_panic cur c rest i st p hp hpd] at h; simp at h
      | some res =>
        obtain ⟨st', a, dl⟩ := res
        obtain ⟨P1, P2, P3, P4⟩ := processDeltas_spec cur _ st st' a dl hpd
        by_cases hz : a.length + dl.length = 0
        · rw [runWalk_zero cur c rest i st p st' a dl hp hpd hz] at h
          obtain ⟨Q1, Q2⟩ := ih (i + 1) st' r h v
          exact ⟨Q1, fun hv => Q2 ((P1 v).mpr (Or.inl hv))⟩
        · cases hw : runWalk cur rest (i + 1) st' with
          | error e =>
            rw [runWalk_sec_err cur c rest i st p st' a dl e hp hpd hz hw] at h
            simp at h
          | ok tail =>
            rw [runWalk_sec_ok cur c rest i st p st' a dl tail hp hpd hz hw] at h
            injection h with h'
            subst h'
            obtain ⟨Q1, Q2⟩ := ih (i + 1) st' tail hw v
            rw [addedLineCount_cons]
            simp only [lines_count_added]
            by_cases hvst : v ∈ st
            · have hva : v ∉ a := fun hva => ((P2 v).mp hva).1 hvst
              have hc0 : a.count v = 0 := List.count_eq_zero.mpr hva
              have ht0 : addedLineCount tail v = 0 := Q2 ((P1 v).mpr (Or.inl hvst))
              constructor
              · omega
              · intro _; omega
            · constructor
              · by_cases hva : v ∈ a
                · have hc1 : a.count v = 1 := List.count_eq_one_of_mem P4 hva
                  have ht0 : addedLineCount tail v = 0 :=
                    Q2 ((P1 v).mpr (Or.inr ((P2 v).mp hva).2))
                  omega
                · have hc0 : a.count v = 0 := List.count_eq_zero.mpr hva
                  omega
              · intro hv
                exact absurd hv hvst

/-- `Removed v` lines never appear for an identifier in the current-id set. -/
lemma runWalk_removed (cur : List String) (hist : List Commit) :
    ∀ (i : Nat) (st : List String) (r : List ReportSection),
      runWalk cur hist i st = Except.ok r →
      ∀ v : String, v ∈ cur → ∀ sec ∈ r, ReportLine.removed v ∉ sec.lines := by
  induction hist with
  | nil =>
    intro i st r h v hv sec hsec
    simp [runWalk] at h
    subst h
    simp at hsec
  | cons c rest ih =>
    intro i st r h v hv sec hsec
    cases hp : c.parents.head? with
    | none =>
      rw [runWalk_root cur c rest i st hp] at h
      exact ih (i + 1) st r h v hv sec hsec
    | some p =>
      cases hpd : processDeltas cur st (diffTrees p c.tree) with
      | none => rw [runWalk_panic cur c rest i st p hp hpd] at h; simp at h
      | some res =>
        obtain ⟨st', a, dl⟩ := res
        obtain ⟨P1, P2, P3, P4⟩ := processDeltas_spec cur _ st st' a dl hpd
        by_cases hz : a.length + dl.length = 0
        · rw [runWalk_zero cur c rest i st p st' a dl hp hpd hz] at h
          exact ih (i + 1) st' r h v hv sec hsec
        · cases hw : runWalk cur rest (i + 1) st' with
          | error e =>
            rw [runWalk_sec_err cur c rest i st p st' a dl e hp hpd hz hw] at h
            simp at h
          | ok tail =>
            rw [runWalk_sec_ok cur c rest i st p st' a dl tail hp hpd hz hw] at h
            injection h with h'
            subst h'
            rw [List.mem_cons] at hsec
            rcases hsec with rfl | hsec
            · intro hline
              rw [removed_mem_lines] at hline
              rw [P3, List.mem_filter] at hline
              have := hline.2
              simp at this
              exact this hv
            · exact ih (i + 1) st' tail hw v hv sec hsec

/-- The `Added v` line, when it exists, sits exactly in the section of the
earliest walked commit whose diff has a qualifying `Added` delta for `v`. -/
lemma runWalk_first (cur : List String) (hist : List Commit) :
    ∀ (i : Nat) (st : List String) (r : List ReportSection),
      runWalk cur hist i st = Except.ok r → ∀ v : String, v ∉ st →
        ((∀ k, firstQualIdx v hist = some k →
            ∃ sec, sec ∈ r ∧ sec.idx = i + k ∧ ReportLine.added v ∈ sec.lines) ∧
         (∀ sec, sec ∈ r → ReportLine.added v ∈ sec.lines →
            ∃ k, firstQualIdx v hist = some k ∧ sec.idx = i + k)) := by
  induction hist with
  | nil =>
    intro i st r h v hvst
    simp [runWalk] at h
    subst h
    constructor
    · intro k hk; simp [firstQualIdx] at hk
    · intro sec hsec; simp at hsec
  | cons c rest ih =>
    intro i st r h v hvst
    cases hp : c.parents.head? with
    | none =>
      have hq : hasQualAdd v c = false := by simp [hasQualAdd, hp]
      rw [runWalk_root cur c rest i st hp] at h
      obtain ⟨W1, W2⟩ := ih (i + 1) st r h v hvst
      constructor
      · intro k hk
        simp only [firstQualIdx, hq, Bool.false_eq_true, if_false] at hk
        cases hk0 : firstQualIdx v rest with
        | none => rw [hk0] at hk; cases hk
        | some k0 =>
          rw [hk0] at hk
          simp at hk
          obtain ⟨sec, hsec, hidx, hline⟩ := W1 k0 hk0
          exact ⟨sec, hsec, by omega, hline⟩
      · intro sec hsec hline
        obtain ⟨k0, hk0, hidx⟩ := W2 sec hsec hline
        refine ⟨k0 + 1, ?_, by omega⟩
        simp [firstQualIdx, hq, hk0]
    | some p =>
      cases hpd : processDeltas cur st (diffTrees p c.tree) with
      | none => rw [runWalk_panic cur c rest i st p hp hpd] at h; simp at h
      | some res =>
        obtain ⟨st', a, dl⟩ := res
        obtain ⟨P1, P2, P3, P4⟩ := processDeltas_spec cur _ st st' a dl hpd
        by_cases hq : v ∈ qualStems .added (diffTrees p c.tree)
        · have hqt : hasQualAdd v c = true := by simp [hasQualAdd, hp, hq]
          have hva : v ∈ a := (P2 v).mpr ⟨hvst, hq⟩
          have hz : ¬(a.length + dl.length = 0) := by
            intro hcontra
            have ha : a = [] := List.length_eq_zero.mp (by omega)
            rw [ha] at hva
            simp at hva
          cases hw : runWalk cur rest (i + 1) st' with
          | error e =>
            rw [runWalk_sec_err cur c rest i st p st' a dl e hp hpd hz hw] at h
            simp at h
          | ok tail =>
            rw [runWalk_sec_ok cur c rest i st p st' a dl tail hp hpd hz hw] at h
            injection h with h'
            subst h'
            have hst' : v ∈ st' := (P1 v).mpr (Or.inr hq)
            have ht0 : addedLineCount tail v = 0 :=
              (runWalk_count cur rest (i + 1) st' tail hw v).2 hst'
            have htail := addedLineCount_zero tail v ht0
            constructor
            · intro k hk
              simp only [firstQualIdx, hqt, if_true] at hk
              injection hk with hk
              subst hk
              refine ⟨⟨i, a.map ReportLine.added ++ dl.map ReportLine.removed⟩,
                List.mem_cons_self _ _, by simp, ?_⟩
              rw [added_mem_lines]
              exact hva
            · intro sec hsec hline
              rw [List.mem_cons] at hsec
              rcases hsec with rfl | hsec
              · exact ⟨0, by simp [firstQualIdx, hqt], by simp⟩
              · exact absurd hline (htail sec hsec)
        · have hqf : hasQualAdd v c = false := by simp [hasQualAdd, hp, hq]
          have hva : v ∉ a := fun hva => hq ((P2 v).mp hva).2
          have hst' : v ∉ st' := by
            intro hst'
            rcases (P1 v).mp hst' with h1 | h1
            · exact hvst h1
            · exact hq h1
          by_cases hz : a.length + dl.length = 0
          · rw [runWalk_zero cur c rest i st p st' a dl hp hpd hz] at h
            obtain ⟨W1, W2⟩ := ih (i + 1) st' r h v hst'
            constructor
            · intro k hk
              simp only [firstQualIdx, hqf, Bool.false_eq_true, if_false] at hk
              cases hk0 : firstQualIdx v rest with
              | none => rw [hk0] at hk; cases hk
              | some k0 =>
                rw [hk0] at hk
                simp at hk
                obtain ⟨sec, hsec, hidx, hline⟩ := W1 k0 hk0
                exact ⟨sec, hsec, by omega, hline⟩
            · intro sec hsec hline
              obtain ⟨k0, hk0, hidx⟩ := W2 sec hsec hline
              exact ⟨k0 + 1, by simp [firstQualIdx, hqf, hk0], by omega⟩
          · cases hw : runWalk cur rest (i + 1) st' with
            | error e =>
              rw [runWalk_sec_err cur c rest i st p st' a dl e hp hpd hz hw] at h
              simp at h
            | ok tail =>
              rw [runWalk_sec_ok cur c rest i st p st' a dl tail hp hpd hz hw] at h
              injection h with h'
              subst h'
              obtain ⟨W1, W2⟩ := ih (i + 1) st' tail hw v hst'
              constructor
              · intro k hk
                simp only [firstQualIdx, hqf, Bool.false_eq_true, if_false] at hk
                cases hk0 : firstQualIdx v rest with
                | none => rw [hk0] at hk; cases hk
                | some k0 =>
                  rw [hk0] at hk
                  simp at hk
                  obtain ⟨sec, hsec, hidx, hline⟩ := W1 k0 hk0
                  exact ⟨sec, List.mem_cons_of_mem _ hsec, by omega, hline⟩
              · intro sec hsec hline
                rw [List.mem_cons] at hsec
                rcases hsec with rfl | hsec
                · rw [added_mem_lines] at hline
                  exact absurd hline hva
                · obtain ⟨k0, hk0, hidx⟩ := W2 sec hsec hline
                  exact ⟨k0 + 1, by simp [firstQualIdx, hqf, hk0], by omega⟩

lemma sectionsFrom_length (i : Nat) (vs : List String) :
    (sectionsFrom i vs).length = vs.length := by
  induction vs generalizing i with
  | nil => rfl
  | cons v vs ih => simp [sectionsFrom, ih]

lemma sectionsFrom_lines (i : Nat) (vs : List String) :
    ∀ sec ∈ sectionsFrom i vs, ∃ w, sec.lines = [ReportLine.added w] := by
  induction vs generalizing i with
  | nil => intro sec hsec; simp [sectionsFrom] at hsec
  | cons v vs ih =>
    intro sec hsec
    simp only [sectionsFrom, List.mem_cons] at hsec
    rcases hsec with rfl | hsec
    · exact ⟨v, rfl⟩
    · exact ih (i + 1) sec hsec

lemma addsChain_length (t : Tree) (cs : List Commit) (vs : List String) :
    AddsChain t cs vs → cs.length = vs.length := by
  induction cs generalizing t vs with
  | nil =>
    intro h
    cases vs with
    | nil => rfl
    | cons v vs => simp [AddsChain] at h
  | cons c cs ih =>
    intro h
    cases vs with
    | nil => simp [AddsChain] at h
    | cons v vs =>
      obtain ⟨_, _, hrest⟩ := h
      simp [ih c.tree vs hrest]

/-- A chain of single-fresh-`Added` commits produces exactly one section per
commit, each with one `Added` line, at consecutive walk indexes. -/
lemma runWalk_chain (cur : List String) (cs : List Commit) :
    ∀ (t : Tree) (vs : List String) (i : Nat) (st : List String),
      AddsChain t cs vs → vs.Nodup → (∀ v ∈ vs, v ∉ st) →
      runWalk cur cs i st = Except.ok (sectionsFrom i vs) := by
  induction cs with
  | nil =>
    intro t vs i st hchain _ _
    cases vs with
    | nil => simp [runWalk, sectionsFrom]
    | cons v vs => simp [AddsChain] at hchain
  | cons c cs ih =>
    intro t vs i st hchain hnodup hfresh
    cases vs with
    | nil => simp [AddsChain] at hchain
    | cons v vs =>
      obtain ⟨hpar, ⟨p, hdiff, hunder, hstem⟩, hrest⟩ := hchain
      have hp : c.parents.head? = some t := by rw [hpar]; rfl
      have hvst : v ∉ st := hfresh v (List.mem_cons_self v vs)
      have hpd : processDeltas cur st (diffTrees t c.tree) = some (v :: st, [v], []) := by
        rw [hdiff,
          processDeltas_cons_added_new cur st ⟨.added, some p⟩ [] p v rfl rfl hunder hstem hvst]
        simp [processDeltas]
      have hz : ¬((([v] : List String)).length + ([] : List String).length = 0) := by simp
      have htail : runWalk cur cs (i + 1) (v :: st) = .ok (sectionsFrom (i + 1) vs) := by
        apply ih c.tree vs (i + 1) (v :: st) hrest (List.Nodup.of_cons hnodup)
        intro w hw
        simp only [List.mem_cons]
        push_neg
        constructor
        · intro hwv
          subst hwv
          exact (List.nodup_cons.mp hnodup).1 hw
        · exact hfresh w (List.mem_cons_of_mem v hw)
      rw [runWalk_sec_ok cur c cs i st t (v :: st) [v] [] _ hp hpd hz htail]
      simp [sectionsFrom]

/-- Per-delta totality under the backend precondition: a populated new-file
path for every Added/Deleted delta, and a resolvable stem for every such
path under the tracked directory. -/
lemma processDeltas_total (cur : List String) (ds : List DeltaRec) :
    ∀ st : List String,
      (∀ d ∈ ds, d.status ≠ .other →
        ∃ p, d.newFilePath = some p ∧ (underSongs p = true → (fileStem p).isSome)) →
      (processDeltas cur st ds).isSome := by
  induction ds with
  | nil => intro st _; simp [processDeltas]
  | cons d ds ih =>
    intro st hpre
    have hpre' : ∀ d' ∈ ds, d'.status ≠ .other →
        ∃ p, d'.newFilePath = some p ∧ (underSongs p = true → (fileStem p).isSome) :=
      fun d' hd' => hpre d' (List.mem_cons_of_mem d hd')
    by_cases h1 : d.status = .other
    · rw [processDeltas_cons_other cur st d ds h1]
      exact ih st hpre'
    · obtain ⟨p, hp, hstem⟩ := hpre d (List.mem_cons_self d ds) h1
      cases h3 : underSongs p with
      | false =>
        rw [processDeltas_cons_notUnder cur st d ds p hp h3]
        exact ih st hpre'
      | true =>
        cases h4 : fileStem p with
        | none =>
          have := hstem h3
          rw [h4] at this
          simp at this
        | some v =>
          cases hA : d.status with
          | other => exact absurd hA h1
          | added =>
            by_cases h5 : v ∈ st
            · rw [processDeltas_cons_added_dup cur st d ds p v hA hp h3 h4 h5]
              exact ih st hpre'
            · rw [processDeltas_cons_added_new cur st d ds p v hA hp h3 h4 h5,
                Option.isSome_map']
              exact ih (v :: st) hpre'
          | deleted =>
            by_cases h5 : v ∈ cur
            · rw [processDeltas_cons_del_cur cur st d ds p v hA hp h3 h4 h5]
              exact ih st hpre'
            · rw [processDeltas_cons_del_keep cur st d ds p v hA hp h3 h4 h5,
                Option.isSome_map']
              exact ih st hpre'

/-- Without the precondition, a reachable Added/Deleted delta with a missing
path, or a tracked path with no stem, makes the loop panic. -/
lemma processDeltas_panic (cur : List String) (ds : List DeltaRec) :
    ∀ (st : List String) (d : DeltaRec), d ∈ ds → d.status ≠ .other →
      (d.newFilePath = none ∨
        ∃ p, d.newFilePath = some p ∧ underSongs p = true ∧ fileStem p = none) →
      processDeltas cur st ds = none := by
  induction ds with
  | nil => intro st d h; simp at h
  | cons d0 ds ih =>
    intro st d hmem h1 hbad
    rw [List.mem_cons] at hmem
    rcases hmem with rfl | hmem
    · rcases hbad with h2 | ⟨p, h2, h3, h4⟩
      · exact processDeltas_cons_noPath cur st d ds h1 h2
      · exact processDeltas_cons_noStem cur st d ds p h1 h2 h3 h4
    · by_cases g1 : d0.status = .other
      · rw [processDeltas_cons_other cur st d0 ds g1]
        exact ih st d hmem h1 hbad
      · cases g2 : d0.newFilePath with
        | none => exact processDeltas_cons_noPath cur st d0 ds g1 g2
        | some p =>
          cases g3 : underSongs p with
          | false =>
            rw [processDeltas_cons_notUnder cur st d0 ds p g2 g3]
            exact ih st d hmem h1 hbad
          | true =>
            cases g4 : fileStem p with
            | none => exact processDeltas_cons_noStem cur st d0 ds p g1 g2 g3 g4
            | some v =>
              cases gA : d0.status with
              | other => exact absurd gA g1
              | added =>
                by_cases g5 : v ∈ st
                · rw [processDeltas_cons_added_dup cur st d0 ds p v gA g2 g3 g4 g5]
                  exact ih st d hmem h1 hbad
                · rw [processDeltas_cons_added_new cur st d0 ds p v gA g2 g3 g4 g5,
                    ih (v :: st) d hmem h1 hbad]
                  rfl
              | deleted =>
                by_cases g5 : v ∈ cur
                · rw [processDeltas_cons_del_cur cur st d0 ds p v gA g2 g3 g4 g5]
                  exact ih st d hmem h1 hbad
                · rw [processDeltas_cons_del_keep cur st d0 ds p v gA g2 g3 g4 g5,
                    ih st d hmem h1 hbad]
                  rfl

/-! ### Claim theorems -/

/-- C1: for every identifier in the current-id set built from the head
snapshot's summary document, no `Removed` line for it ever appears anywhere
in the report, regardless of how many historical commits delete a path with
that stem; moreover every Deleted event whose identifier is in the set is
dropped and every Deleted event whose identifier is not in the set is kept —
each processed commit's deleted list is exactly the qualifying deleted stems
with current identifiers filtered out. -/
theorem current_id_suppression (cur : List String) (hist : List Commit)
    (r : List ReportSection) (h : runWalk cur hist 0 [] = Except.ok r) :
    (∀ v : String, v ∈ cur → ∀ sec ∈ r, ReportLine.removed v ∉ sec.lines) ∧
    (∀ (st : List String) (ds : List DeltaRec) (st' a dl : List String),
      processDeltas cur st ds = some (st', a, dl) →
      dl = (qualStems .deleted ds).filter (fun w => decide (w ∉ cur))) :=
  ⟨fun v hv sec hsec => runWalk_removed cur hist 0 [] r h v hv sec hsec,
   fun st ds st' a dl hpd => (processDeltas_spec cur ds st st' a dl hpd).2.2.1⟩

/-- C1 witness: a history deleting both a current identifier (`keep`,
suppressed) and a stale one (`gone`, reported). -/
theorem current_id_suppression_witness :
    ReportLine.removed "keep" ∉ (ReportSection.mk 1 [ReportLine.removed "gone"]).lines :=
  (current_id_suppression ["keep"]
      [⟨[], [["output", "songs", "keep"], ["output", "songs", "gone"]]⟩,
       ⟨[[["output", "songs", "keep"], ["output", "songs", "gone"]]], []⟩]
      [⟨1, [ReportLine.removed "gone"]⟩] rfl).1 "keep" (by simp)
    ⟨1, [ReportLine.removed "gone"]⟩ (by simp)

/-- C2: at most one `Added v` line appears in the whole report, and it
appears in the section of the earliest walked commit whose diff contains a
qualifying Added delta with stem `v`; an Added event whose identifier is
already in the `already_added` set is dropped, otherwise the identifier is
inserted (the set only ever grows) and the event is kept. -/
theorem added_dedup (cur : List String) (hist : List Commit)
    (r : List ReportSection) (h : runWalk cur hist 0 [] = Except.ok r) (v : String) :
    addedLineCount r v ≤ 1 ∧
    (∀ k, firstQualIdx v hist = some k →
      ∃ sec, sec ∈ r ∧ sec.idx = k ∧ ReportLine.added v ∈ sec.lines) ∧
    (∀ sec, sec ∈ r → ReportLine.added v ∈ sec.lines →
      firstQualIdx v hist = some sec.idx) ∧
    (∀ (st : List String) (ds : List DeltaRec) (st' a dl : List String),
      processDeltas cur st ds = some (st', a, dl) →
      ((v ∈ a ↔ (v ∉ st ∧ v ∈ qualStems .added ds)) ∧ (v ∈ st → v ∈ st'))) := by
  have hfree : v ∉ ([] : List String) := by simp
  obtain ⟨W1, W2⟩ := runWalk_first cur hist 0 [] r h v hfree
  refine ⟨(runWalk_count cur hist 0 [] r h v).1, ?_, ?_, ?_⟩
  · intro k hk
    obtain ⟨sec, hsec, hidx, hline⟩ := W1 k hk
    exact ⟨sec, hsec, by omega, hline⟩
  · intro sec hsec hline
    obtain ⟨k, hk, hidx⟩ := W2 sec hsec hline
    rw [hidx]
    simpa using hk
  · intro st ds st' a dl hpd
    obtain ⟨P1, P2, _, _⟩ := processDeltas_spec cur ds st st' a dl hpd
    exact ⟨P2 v, fun hv => (P1 v).mpr (Or.inl hv)⟩

/-- C2 witness: `a` is added at walk index 1, removed, and re-added at
index 3; the report carries exactly one `Added a` line, at index 1. -/
theorem added_dedup_witness :
    addedLineCount
      [⟨1, [ReportLine.added "a"]⟩, ⟨2, [ReportLine.removed "a"]⟩] "a" ≤ 1 :=
  (added_dedup []
      [⟨[], []⟩, ⟨[[]], [["output", "songs", "a"]]⟩,
       ⟨[[["output", "songs", "a"]]], []⟩, ⟨[[]], [["output", "songs", "a"]]⟩]
      [⟨1, [ReportLine.added "a"]⟩, ⟨2, [ReportLine.removed "a"]⟩] rfl "a").1

/-- C3 counterexample: the claim says an `items` element whose `id` field is
missing does not abort the run, but the loader panics on it
(`item["id"].as_str().unwrap()`) — the load returns no set at all. -/
theorem summary_bad_id_aborts :
    get_current_ids [JVal.obj [("items", JVal.arr [JVal.obj []])]] = none := rfl

/-- C3 amended: a parsed value with no `items` field, or whose `items` is
not an array, is silently skipped; but an element of an `items` array whose
`id` field is missing or not a string aborts the whole load (and hence the
run) via `unwrap`; when no element is malformed, the loader collects exactly
the elements' `id` strings. -/
theorem summary_loader_shape_handling :
    (∀ (v : JVal) (s : List JVal) (acc : List String), jGet v "items" = none →
      getIdsGo (v :: s) acc = getIdsGo s acc) ∧
    (∀ (v : JVal) (s : List JVal) (acc : List String) (items : JVal),
      jGet v "items" = some items → jAsArr items = none →
      getIdsGo (v :: s) acc = getIdsGo s acc) ∧
    (∀ (v : JVal) (s : List JVal) (acc : List String) (xs : List JVal) (item : JVal),
      jGet v "items" = some (JVal.arr xs) → item ∈ xs →
      jAsStr (jIndex item "id") = none → getIdsGo (v :: s) acc = none) ∧
    (∀ (xs : List JVal) (acc acc2 : List String), addItemIds xs acc = some acc2 →
      ∀ x : String, x ∈ acc2 ↔
        (x ∈ acc ∨ ∃ item, item ∈ xs ∧ jAsStr (jIndex item "id") = some x)) := by
  refine ⟨?_, ?_, ?_, addItemIds_mem⟩
  · intro v s acc h
    simp [getIdsGo, h]
  · intro v s acc items h1 h2
    simp [getIdsGo, h1, h2]
  · intro v s acc xs item h1 h2 h3
    have hnone := addItemIds_none item h3 xs h2 acc
    simp [getIdsGo, h1, jAsArr, hnone]

/-- C3 amended witness: a shapeless number value contributes nothing and
does not abort. -/
theorem summary_loader_shape_handling_witness :
    getIdsGo [JVal.num] [] = getIdsGo [] [] :=
  summary_loader_shape_handling.1 JVal.num [] [] rfl

/-- C4 counterexample: a linear history of N = 1 commits whose single (root)
commit adds exactly one tracked identifier, with the current-id set equal to
the identifiers added, produces zero report sections, not the one section
the claim demands: the root commit is skipped entirely. -/
theorem root_commit_section_missing :
    runWalk ["a"] [⟨[], [["output", "songs", "a"]]⟩] 0 [] = Except.ok [] ∧
    ([] : List ReportSection).length ≠ 1 :=
  ⟨rfl, by simp⟩

/-- C4 amended: for a linear history of N commits — a root plus a chain in
which each subsequent commit adds exactly one fresh identifier under the
tracked directory — with the current-id set containing nothing beyond the
added identifiers, the report contains exactly N − 1 sections (the
parentless root contributes none), each with exactly one `Added` line, in
commit order. -/
theorem linear_history_section_count (cur : List String) (c0 : Commit)
    (cs : List Commit) (vs : List String)
    (hroot : c0.parents = [])
    (hchain : AddsChain c0.tree cs vs)
    (hnodup : vs.Nodup)
    (_hcur : ∀ x ∈ cur, x ∈ vs ∨
      ∃ p, p ∈ c0.tree ∧ underSongs p = true ∧ fileStem p = some x) :
    runWalk cur (c0 :: cs) 0 [] = Except.ok (sectionsFrom 1 vs) ∧
    (sectionsFrom 1 vs).length + 1 = (c0 :: cs).length ∧
    (∀ sec ∈ sectionsFrom 1 vs, ∃ w, sec.lines = [ReportLine.added w]) := by
  have hp : c0.parents.head? = none := by rw [hroot]; rfl
  have hlen := addsChain_length c0.tree cs vs hchain
  refine ⟨?_, ?_, sectionsFrom_lines 1 vs⟩
  · rw [runWalk_root cur c0 cs 0 [] hp]
    exact runWalk_chain cur cs c0.tree vs 1 [] hchain hnodup (by simp)
  · simp [sectionsFrom_length, hlen]

/-- C4 amended witness: a root plus two single-add commits yields two
sections at indexes 1 and 2. -/
theorem linear_history_section_count_witness :
    runWalk ["a", "b"]
      [⟨[], []⟩, ⟨[[]], [["output", "songs", "a"]]⟩,
       ⟨[[["output", "songs", "a"]]],
        [["output", "songs", "a"], ["output", "songs", "b"]]⟩]
      0 [] = Except.ok (sectionsFrom 1 ["a", "b"]) :=
  (linear_history_section_count ["a", "b"] ⟨[], []⟩
      [⟨[[]], [["output", "songs", "a"]]⟩,
       ⟨[[["output", "songs", "a"]]],
        [["output", "songs", "a"], ["output", "songs", "b"]]⟩]
      ["a", "b"] rfl
      ⟨rfl, ⟨["output", "songs", "a"], rfl, rfl, rfl⟩,
        ⟨rfl, ⟨["output", "songs", "b"], rfl, rfl, rfl⟩, trivial⟩⟩
      (by simp)
      (by intro x hx; simp at hx; rcases hx with rfl | rfl <;> simp)).1

/-- C5 counterexample: with the repository and head resolvable but the
summary document unresolvable, the run aborts only after the output file was
truncated and the title line written — the file's content is not unchanged
from before the run; a bare title line is left behind. -/
theorem summary_failure_leaves_title :
    mainModel ⟨true, true, false, [], []⟩ true true = RunOutcome.fatalAfterTitle [] ∧
    RunOutcome.fatalAfterTitle [] ≠ RunOutcome.fatalUntouched :=
  ⟨rfl, by simp⟩

/-- C5 amended: failures to open the repository or resolve head — and an
existing output file without the overwrite flag — abort before the output
file is touched; but an unresolvable summary document (or a malformed
summary id) aborts only after the output file has been truncated and the
title line written, leaving that partial output behind. -/
theorem fatal_abort_file_state (repo : RepoM) (force fileExists : Bool) :
    (repo.openOk = false → mainModel repo force fileExists = RunOutcome.fatalUntouched) ∧
    (repo.headOk = false → mainModel repo force fileExists = RunOutcome.fatalUntouched) ∧
    (fileExists = true → force = false →
      mainModel repo force fileExists = RunOutcome.fatalUntouched) ∧
    (repo.openOk = true → repo.headOk = true → (force = true ∨ fileExists = false) →
      repo.summaryOk = false →
      mainModel repo force fileExists = RunOutcome.fatalAfterTitle []) := by
  obtain ⟨o, hk, so, str, hist⟩ := repo
  refine ⟨?_, ?_, ?_, ?_⟩
  · rintro rfl
    rfl
  · rintro rfl
    cases o <;> rfl
  · rintro rfl rfl
    cases o <;> cases hk <;> rfl
  · rintro rfl rfl hor rfl
    rcases hor with rfl | rfl
    · cases fileExists <;> rfl
    · rfl

/-- C5 amended witness: summary failure with a fresh output file leaves the
bare title. -/
theorem fatal_abort_file_state_witness :
    mainModel ⟨true, true, false, [], []⟩ true false = RunOutcome.fatalAfterTitle [] :=
  (fatal_abort_file_state ⟨true, true, false, [], []⟩ true false).2.2.2 rfl rfl
    (Or.inl rfl) rfl

/-- C6: a parentless (root) commit is skipped entirely — it contributes no
diff and no section — so a repository whose history is a single parentless
commit produces only the title line and zero sections; and a multi-parent
commit is diffed only against its first parent: the remaining parents never
influence the walk. -/
theorem root_skip_and_first_parent (cur st : List String) (i : Nat) :
    (∀ (c : Commit) (rest : List Commit), c.parents = [] →
      runWalk cur (c :: rest) i st = runWalk cur rest (i + 1) st) ∧
    (∀ (c : Commit) (force : Bool), c.parents = [] →
      mainModel ⟨true, true, true, [], [c]⟩ force false = RunOutcome.success []) ∧
    (∀ (p : Tree) (ps : List Tree) (t : Tree) (rest : List Commit),
      runWalk cur (⟨p :: ps, t⟩ :: rest) i st = runWalk cur (⟨[p], t⟩ :: rest) i st) := by
  refine ⟨?_, ?_, ?_⟩
  · intro c rest h
    exact runWalk_root cur c rest i st (by rw [h]; rfl)
  · intro c force h
    obtain ⟨ps, t⟩ := c
    simp only at h
    subst h
    rfl
  · intro p ps t rest
    rfl

/-- C6 witness: a single parentless commit gives a title-only report. -/
theorem root_skip_and_first_parent_witness :
    runWalk [] [(⟨[], []⟩ : Commit)] 0 [] = runWalk [] [] 1 [] ∧
    mainModel ⟨true, true, true, [], [⟨[], []⟩]⟩ true false = RunOutcome.success [] :=
  ⟨(root_skip_and_first_parent [] [] 0).1 ⟨[], []⟩ [] rfl,
   (root_skip_and_first_parent [] [] 0).2.1 ⟨[], []⟩ true rfl⟩

/-- C7: a walked commit gets a section exactly when its filtered
added-plus-deleted event count is at least one; deltas with statuses outside
Added/Deleted, and deltas outside the tracked-directory prefix, are skipped
with no effect on state or output. -/
theorem section_iff_events (cur : List String) (c : Commit) (rest : List Commit)
    (i : Nat) (st : List String) (r : List ReportSection)
    (h : runWalk cur (c :: rest) i st = Except.ok r) :
    (∃ n, commitCount cur st c = some n ∧ ((∃ sec ∈ r, sec.idx = i) ↔ 1 ≤ n)) ∧
    (∀ (d : DeltaRec) (ds : List DeltaRec), d.status = .other →
      processDeltas cur st (d :: ds) = processDeltas cur st ds) ∧
    (∀ (s : DStatus) (p : List String) (ds : List DeltaRec), underSongs p = false →
      processDeltas cur st (⟨s, some p⟩ :: ds) = processDeltas cur st ds) := by
  refine ⟨?_, fun d ds hd => processDeltas_cons_other cur st d ds hd,
    fun s p ds hup => processDeltas_cons_notUnder cur st ⟨s, some p⟩ ds p rfl hup⟩
  cases hp : c.parents.head? with
  | none =>
    refine ⟨0, by simp [commitCount, hp], ?_⟩
    rw [runWalk_root cur c rest i st hp] at h
    constructor
    · rintro ⟨sec, hsec, hidx⟩
      have := runWalk_idx_ge cur rest (i + 1) st r h sec hsec
      omega
    · intro h1
      omega
  | some p =>
    cases hpd : processDeltas cur st (diffTrees p c.tree) with
    | none => rw [runWalk_panic cur c rest i st p hp hpd] at h; simp at h
    | some res =>
      obtain ⟨st', a, dl⟩ := res
      refine ⟨a.length + dl.length, by simp [commitCount, hp, hpd], ?_⟩
      by_cases hz : a.length + dl.length = 0
      · rw [runWalk_zero cur c rest i st p st' a dl hp hpd hz] at h
        constructor
        · rintro ⟨sec, hsec, hidx⟩
          have := runWalk_idx_ge cur rest (i + 1) st' r h sec hsec
          omega
        · intro h1
          omega
      · cases hw : runWalk cur rest (i + 1) st' with
        | error e =>
          rw [runWalk_sec_err cur c rest i st p st' a dl e hp hpd hz hw] at h
          simp at h
        | ok tail =>
          rw [runWalk_sec_ok cur c rest i st p st' a dl tail hp hpd hz hw] at h
          injection h with h'
          subst h'
          constructor
          · intro _
            omega
          · intro _
            exact ⟨⟨i, a.map ReportLine.added ++ dl.map ReportLine.removed⟩,
              List.mem_cons_self _ _, rfl⟩

/-- C7 witness: a commit with one qualifying add has a section; its count
is 1. -/
theorem section_iff_events_witness :
    ∃ n, commitCount [] [] ⟨[[]], [["output", "songs", "a"]]⟩ = some n ∧
      ((∃ sec ∈ [ReportSection.mk 0 [ReportLine.added "a"]], sec.idx = 0) ↔ 1 ≤ n) :=
  (section_iff_events [] ⟨[[]], [["output", "songs", "a"]]⟩ [] 0 []
      [⟨0, [ReportLine.added "a"]⟩] rfl).1

/-- C8: an existing output file without the overwrite flag is a fatal error
whose message instructs the user to pass the flag; with the flag the
existing file is truncated and overwritten; a missing file is created in
either case. -/
theorem output_overwrite_policy (force fileExists : Bool) :
    (fileExists = true → force = false →
      openOutput force fileExists =
        Except.error "Output file output.txt already exists. Use -f, --force to force overwriting the destination") ∧
    (fileExists = true → force = true →
      openOutput force fileExists = Except.ok OpenOutcome.truncatedExisting) ∧
    (fileExists = false → openOutput force fileExists = Except.ok OpenOutcome.createdNew) := by
  refine ⟨?_, ?_, ?_⟩
  · rintro rfl rfl
    rfl
  · rintro rfl rfl
    rfl
  · rintro rfl
    cases force <;> rfl

/-- C8 witness: existing file, no flag. -/
theorem output_overwrite_policy_witness :
    openOutput false true =
      Except.error "Output file output.txt already exists. Use -f, --force to force overwriting the destination" :=
  (output_overwrite_policy false true).1 rfl rfl

/-- C9: the rendered timestamp is computed by adding `offset_minutes * 60`
seconds to the absolute timestamp before calendar formatting, and is
suffixed by a sign character (`'-'` exactly when the offset is negative,
else `'+'`) followed by the zero-padded hours (absolute offset div 60) and
minutes (absolute offset mod 60); the bounds keep the negation inside `i32`
range as in the source. -/
theorem format_time_offset (s o : Int) (h1 : -(2 ^ 31) < o) (h2 : o < 2 ^ 31) :
    (format_time s o).1 = s + o * 60 ∧
    (format_time s o).2 =
      String.singleton (if o < 0 then '-' else '+') ++
        pad2 ((Int.natAbs o : Int) / 60) ++ pad2 ((Int.natAbs o : Int) % 60) := by
  by_cases ho : o < 0
  · have habs : ((Int.natAbs o : Int)) = -o := by omega
    simp [format_time, ho, habs]
  · have habs : ((Int.natAbs o : Int)) = o := by omega
    simp [format_time, ho, habs]

/-- C9 witness: UTC−01:30 on a concrete timestamp. -/
theorem format_time_offset_witness :
    (format_time 100 (-90)).1 = 100 + (-90) * 60 ∧
    (format_time 100 (-90)).2 =
      String.singleton (if (-90 : Int) < 0 then '-' else '+') ++
        pad2 ((Int.natAbs (-90) : Int) / 60) ++ pad2 ((Int.natAbs (-90) : Int) % 60) :=
  format_time_offset 100 (-90) (by norm_num) (by norm_num)

/-- C10: the classifier unconditionally reads the new-side path and its stem
for every Added/Deleted delta: when the backend populates the new-file path
for all such deltas and every tracked path has a resolvable stem, the
per-delta processing is total (no panic); without that precondition, the
program aborts on such a delta. -/
theorem delta_unwrap_totality (cur st : List String) (ds : List DeltaRec) :
    ((∀ d ∈ ds, d.status ≠ .other →
        ∃ p, d.newFilePath = some p ∧ (underSongs p = true → (fileStem p).isSome)) →
      (processDeltas cur st ds).isSome) ∧
    (∀ d ∈ ds, d.status ≠ .other →
      (d.newFilePath = none ∨
        ∃ p, d.newFilePath = some p ∧ underSongs p = true ∧ fileStem p = none) →
      processDeltas cur st ds = none) :=
  ⟨fun hpre => processDeltas_total cur ds st hpre,
   fun d hd h1 hbad => processDeltas_panic cur ds st d hd h1 hbad⟩

/-- C10 witness: a well-formed Added delta processes totally; the same
delta with a missing path panics. -/
theorem delta_unwrap_totality_witness :
    (processDeltas [] [] [⟨.added, some ["output", "songs", "a"]⟩]).isSome ∧
    processDeltas [] [] [⟨.added, none⟩] = none :=
  ⟨(delta_unwrap_totality [] [] [⟨.added, some ["output", "songs", "a"]⟩]).1
      (by
        intro d hd hst
        simp only [List.mem_singleton] at hd
        subst hd
        exact ⟨["output", "songs", "a"], rfl, fun _ => by simp [fileStem, fileName]⟩),
   (delta_unwrap_totality [] [] [⟨.added, none⟩]).2 ⟨.added, none⟩ (by simp)
      (by simp) (Or.inl rfl)⟩

end SongsHistory
